import Mathlib

/-!
# Verification of `pad_max_shape` (src/shaping.py)

Shallow embedding of the numpy recipe `pad_max_shape`, which pads a
collection of equal-rank arrays with a constant value so that all of them
reach the per-axis maximum shape of the collection.

Modelling choices:
* An N-dimensional array is a shape (list of axis sizes) together with a
  total indexing function from multi-indices to values; only indices that
  are in bounds for the shape are meaningful.
* The `before`/`after` fraction configuration is modelled after broadcasting,
  as a function from (array index, axis index) to an exact rational; the
  floating-point values used by numpy are represented exactly by `ℚ`
  (all fractions appearing in the examples of the repository are dyadic and exact).
* `tie_break` composed with the subsequent `.astype(int)` cast is modelled as
  a single function `ℚ → ℤ`; the default `np.floor` becomes `Int.floor` and
  `np.ceil` becomes `Int.ceil`.
* `np.pad(..., mode=constant)` is modelled by `npPad`, which returns `none`
  (the numpy `ValueError`) when some pad width is negative or the width list
  does not match the rank of the array, and otherwise the enlarged array.
* `shapes.max(axis=0)` is modelled by `colMaxShape`, which returns `none` on
  an empty collection (numpy raises on a zero-size reduction).
-/

/-- An N-dimensional array: a shape together with a total indexing function.
Only indices in bounds of `shape` are meaningful. -/
structure NDArray (α : Type) where
  shape : List ℕ
  data : List ℕ → α

/-- `idx` is a valid multi-index into an array of shape `shape`. -/
def inBounds (shape idx : List ℕ) : Prop :=
  idx.length = shape.length ∧ ∀ r, r < shape.length → idx.getD r 0 < shape.getD r 0

instance (shape idx : List ℕ) : Decidable (inBounds shape idx) := by
  unfold inBounds; infer_instance

/-- Model of `np.pad(x, w, mode=constant, constant_values=value)`:
fails (`none`, a numpy `ValueError`) when the width list does not match the
rank or some width is negative; otherwise returns the enlarged array whose
interior block holds the original data and whose remaining cells hold
`value`. -/
def npPad {α : Type} (x : NDArray α) (w : List (ℤ × ℤ)) (value : α) :
    Option (NDArray α) :=
  if w.length = x.shape.length ∧ ∀ p ∈ w, 0 ≤ p.1 ∧ 0 ≤ p.2 then
    some
      { shape := List.zipWith (fun s p => s + p.1.toNat + p.2.toNat) x.shape w
        data := fun idx =>
          if ∀ r, r < x.shape.length →
              ((w.getD r (0, 0)).1.toNat ≤ idx.getD r 0 ∧
                idx.getD r 0 < (w.getD r (0, 0)).1.toNat + x.shape.getD r 0) then
            x.data ((List.range x.shape.length).map
              (fun r => idx.getD r 0 - (w.getD r (0, 0)).1.toNat))
          else value }
  else none

/-- Model of `shapes.max(axis=0)` (line 159 of `shaping.py`): the column-wise
maximum of the stacked shape matrix; numpy raises on an empty collection
(zero-size reduction has no identity), modelled by `none`. -/
def colMaxShape : List (List ℕ) → Option (List ℕ)
  | [] => none
  | s :: rest => some (rest.foldl (fun acc t => List.zipWith max acc t) s)

/-- The effective `before` fraction matrix (lines 155-158 of `shaping.py`):
`before` itself when supplied, else `1 - after` (numpy:
`np.ones_like(shapes) - after`). -/
def effectiveFrac (before : Option (ℕ → ℕ → ℚ)) (after : ℕ → ℕ → ℚ) :
    ℕ → ℕ → ℚ :=
  match before with
  | some b => b
  | none => fun i r => 1 - after i r

/-- `margin = max_size - shapes` (line 160): the signed per-array, per-axis
margin between the target size and the size of the array. -/
def marginOf (shapes : List (List ℕ)) (max_size : List ℕ) (i r : ℕ) : ℤ :=
  (max_size.getD r 0 : ℤ) - ((shapes.getD i []).getD r 0 : ℤ)

/-- `pad_before = tie_break(margin * before).astype(int)` (line 161). -/
def padBefore (tie_break : ℚ → ℤ) (margin : ℤ) (frac : ℚ) : ℤ :=
  tie_break ((margin : ℚ) * frac)

/-- `pad_after = margin - pad_before` (line 162). -/
def padAfter (tie_break : ℚ → ℤ) (margin : ℤ) (frac : ℚ) : ℤ :=
  margin - padBefore tie_break margin frac

/-- Row `i` of the stacked pad-width tensor (line 163): the list of
`(before, after)` pairs for array `i`, one pair per axis `r < R`. -/
def padWidths (tie_break : ℚ → ℤ) (frac : ℕ → ℕ → ℚ)
    (shapes : List (List ℕ)) (max_size : List ℕ) (R i : ℕ) : List (ℤ × ℤ) :=
  (List.range R).map fun r =>
    (padBefore tie_break (marginOf shapes max_size i r) (frac i r),
      padAfter tie_break (marginOf shapes max_size i r) (frac i r))

/-- Model of `pad_max_shape` (lines 154-164 of `shaping.py`): stack the
shapes, broadcast the fraction configuration, take the column-wise maximum,
split each margin by `tie_break`, and pad each array; `none` models the
call raising (empty collection, or invalid pad widths rejected by
`np.pad`). -/
def pad_max_shape {α : Type} (arrays : List (NDArray α))
    (before : Option (ℕ → ℕ → ℚ)) (after : ℕ → ℕ → ℚ) (value : α)
    (tie_break : ℚ → ℤ) : Option (List (NDArray α)) :=
  let shapes := arrays.map NDArray.shape
  match colMaxShape shapes with
  | none => none
  | some max_size =>
      arrays.enum.mapM fun ix =>
        npPad ix.2
          (padWidths tie_break (effectiveFrac before after) shapes max_size
            max_size.length ix.1) value

/-! ## Basic list lemmas used throughout -/

lemma getD_map_range {β : Type} (g : ℕ → β) (R r : ℕ) (d : β) (h : r < R) :
    ((List.range R).map g).getD r d = g r := by
  rw [List.getD_eq_getElem _ _ (by simpa using h)]
  simp

lemma map_range_getD (l : List ℕ) :
    (List.range l.length).map (fun r => l.getD r 0) = l := by
  apply List.ext_getElem
  · simp
  · intro i h1 h2
    simp only [List.getElem_map, List.getElem_range]
    exact List.getD_eq_getElem l 0 h2

lemma getD_mem {β : Type} (l : List β) (i : ℕ) (d : β) (h : i < l.length) :
    l.getD i d ∈ l := by
  rw [List.getD_eq_getElem l d h]
  exact List.getElem_mem h

lemma getD_map_shape {α : Type} (arrays : List (NDArray α)) (i : ℕ) (d : NDArray α)
    (h : i < arrays.length) :
    (arrays.map NDArray.shape).getD i [] = (arrays.getD i d).shape := by
  rw [List.getD_eq_getElem _ _ (by simpa using h), List.getElem_map,
    List.getD_eq_getElem _ _ h]

lemma enum_getD {β : Type} (l : List β) (i : ℕ) (d : β) (h : i < l.length) :
    l.enum.getD i (0, d) = (i, l.getD i d) := by
  rw [List.getD_eq_getElem _ _ (by simpa [List.enum_length] using h),
    List.getElem_enum, List.getD_eq_getElem _ _ h]

/-! ## Folding with `max`: the column-wise maximum of the shape matrix -/

lemma getD_zipWith_max (s t : List ℕ) (r : ℕ) (hr : r < s.length)
    (ht : t.length = s.length) :
    (List.zipWith max s t).getD r 0 = max (s.getD r 0) (t.getD r 0) := by
  have h1 : r < (List.zipWith max s t).length := by
    simp [List.length_zipWith, ht]; omega
  rw [List.getD_eq_getElem _ _ h1, List.getElem_zipWith,
    List.getD_eq_getElem _ _ hr, List.getD_eq_getElem _ _ (by omega)]

lemma foldl_zipWith_max_length (rest : List (List ℕ)) (s : List ℕ)
    (h : ∀ t ∈ rest, t.length = s.length) :
    (rest.foldl (fun acc t => List.zipWith max acc t) s).length = s.length := by
  induction rest generalizing s with
  | nil => rfl
  | cons t ts ih =>
      have ht : t.length = s.length := h t (by simp)
      have hz : (List.zipWith max s t).length = s.length := by
        simp [List.length_zipWith, ht]
      rw [List.foldl_cons, ih (List.zipWith max s t) ?_, hz]
      intro u hu
      rw [hz]
      exact h u (by simp [hu])

lemma foldl_zipWith_max_getD (rest : List (List ℕ)) (s : List ℕ) (r : ℕ)
    (h : ∀ t ∈ rest, t.length = s.length) (hr : r < s.length) :
    (rest.foldl (fun acc t => List.zipWith max acc t) s).getD r 0 =
      rest.foldl (fun acc t => max acc (t.getD r 0)) (s.getD r 0) := by
  induction rest generalizing s with
  | nil => rfl
  | cons t ts ih =>
      have ht : t.length = s.length := h t (by simp)
      have hz : (List.zipWith max s t).length = s.length := by
        simp [List.length_zipWith, ht]
      rw [List.foldl_cons, List.foldl_cons,
        ih (List.zipWith max s t) ?_ (by omega),
        getD_zipWith_max s t r hr ht]
      intro u hu
      rw [hz]
      exact h u (by simp [hu])

lemma le_foldl_max_init (l : List ℕ) (a : ℕ) : a ≤ l.foldl (fun x y => max x y) a := by
  induction l generalizing a with
  | nil => exact le_refl a
  | cons x xs ih => exact le_trans (le_max_left a x) (ih (max a x))

lemma le_foldl_max_mem (l : List ℕ) (a x : ℕ) (hx : x ∈ l) :
    x ≤ l.foldl (fun u v => max u v) a := by
  induction l generalizing a with
  | nil => cases hx
  | cons y ys ih =>
      rcases List.mem_cons.mp hx with h | h
      · subst h
        exact le_trans (le_max_right a x) (le_foldl_max_init ys (max a x))
      · exact ih (max a y) h

lemma foldl_max_choice (l : List ℕ) (a : ℕ) :
    l.foldl (fun u v => max u v) a = a ∨ l.foldl (fun u v => max u v) a ∈ l := by
  induction l generalizing a with
  | nil => exact Or.inl rfl
  | cons x xs ih =>
      rcases ih (max a x) with h | h
      · rcases max_choice a x with hc | hc
        · exact Or.inl (by rw [List.foldl_cons, h, hc])
        · exact Or.inr (by rw [List.foldl_cons, h, hc]; simp)
      · exact Or.inr (by simp [h])

/-! ## Bounds on the floor tie-break split -/

lemma padBefore_floor_nonneg (m : ℤ) (q : ℚ) (hm : 0 ≤ m) (h0 : 0 ≤ q) :
    0 ≤ padBefore Int.floor m q := by
  unfold padBefore
  exact Int.le_floor.mpr (by exact_mod_cast mul_nonneg (by exact_mod_cast hm) h0)

lemma padBefore_floor_le (m : ℤ) (q : ℚ) (hm : 0 ≤ m) (h1 : q ≤ 1) :
    padBefore Int.floor m q ≤ m := by
  unfold padBefore
  calc ⌊(m : ℚ) * q⌋ ≤ ⌊(m : ℚ)⌋ :=
        Int.floor_le_floor (mul_le_of_le_one_right (by exact_mod_cast hm) h1)
    _ = m := Int.floor_intCast m

/-! ## `mapM` over `Option` -/

lemma mapM_option_eq_map {γ β : Type} (l : List γ) (g : γ → Option β) (h : γ → β)
    (H : ∀ x ∈ l, g x = some (h x)) : l.mapM g = some (l.map h) := by
  induction l with
  | nil => rfl
  | cons x xs ih =>
      rw [List.mapM_cons, H x (by simp), ih (fun y hy => H y (by simp [hy]))]
      rfl

lemma mapM_option_some_getD {γ β : Type} (l : List γ) (g : γ → Option β)
    (out : List β) (d1 : γ) (d2 : β) (H : l.mapM g = some out) :
    out.length = l.length ∧
      ∀ k, k < l.length → g (l.getD k d1) = some (out.getD k d2) := by
  induction l generalizing out with
  | nil =>
      have : out = [] := by
        have h0 : some ([] : List β) = some out := H
        exact (Option.some.inj h0).symm
      subst this
      exact ⟨rfl, fun k hk => absurd hk (by simp)⟩
  | cons x xs ih =>
      rw [List.mapM_cons] at H
      cases hx : g x with
      | none => rw [hx] at H; simp at H
      | some y =>
          rw [hx] at H
          cases hxs : xs.mapM g with
          | none => rw [hxs] at H; simp at H
          | some ys =>
              rw [hxs] at H
              have hout : out = y :: ys := by
                have h0 : some (y :: ys) = some out := H
                exact (Option.some.inj h0).symm
              subst hout
              obtain ⟨hlen, hk⟩ := ih ys hxs
              refine ⟨by simp [hlen], fun k hklt => ?_⟩
              cases k with
              | zero => simpa using hx
              | succ k =>
                  simpa using hk k (by simpa using hklt)

/-! ## Facts about `colMaxShape`, `padWidths` and `npPad` -/

lemma colMaxShape_length (shapes : List (List ℕ)) (ms : List ℕ) (R : ℕ)
    (h : colMaxShape shapes = some ms) (hr : ∀ t ∈ shapes, t.length = R) :
    ms.length = R := by
  match shapes, h with
  | s :: rest, h =>
      have hms : ms = rest.foldl (fun acc t => List.zipWith max acc t) s :=
        (Option.some.inj h).symm
      have hs : s.length = R := hr s (by simp)
      rw [hms, foldl_zipWith_max_length rest s
        (fun t ht => by rw [hs, hr t (by simp [ht])])]
      exact hs

lemma padWidths_length (tb : ℚ → ℤ) (f : ℕ → ℕ → ℚ) (shapes : List (List ℕ))
    (ms : List ℕ) (R i : ℕ) : (padWidths tb f shapes ms R i).length = R := by
  simp [padWidths]

lemma padWidths_getD (tb : ℚ → ℤ) (f : ℕ → ℕ → ℚ) (shapes : List (List ℕ))
    (ms : List ℕ) (R i r : ℕ) (hr : r < R) :
    (padWidths tb f shapes ms R i).getD r (0, 0) =
      (padBefore tb (marginOf shapes ms i r) (f i r),
        padAfter tb (marginOf shapes ms i r) (f i r)) :=
  getD_map_range _ R r (0, 0) hr

lemma mem_padWidths (tb : ℚ → ℤ) (f : ℕ → ℕ → ℚ) (shapes : List (List ℕ))
    (ms : List ℕ) (R i : ℕ) (p : ℤ × ℤ) (hp : p ∈ padWidths tb f shapes ms R i) :
    ∃ r, r < R ∧
      p = (padBefore tb (marginOf shapes ms i r) (f i r),
        padAfter tb (marginOf shapes ms i r) (f i r)) := by
  obtain ⟨r, hr, hpe⟩ := List.mem_map.mp hp
  exact ⟨r, List.mem_range.mp hr, hpe.symm⟩

lemma npPad_eq_some {α : Type} (x : NDArray α) (w : List (ℤ × ℤ)) (value : α)
    (hw : w.length = x.shape.length) (hpos : ∀ p ∈ w, 0 ≤ p.1 ∧ 0 ≤ p.2) :
    npPad x w value =
      some
        { shape := List.zipWith (fun s p => s + p.1.toNat + p.2.toNat) x.shape w
          data := fun idx =>
            if ∀ r, r < x.shape.length →
                ((w.getD r (0, 0)).1.toNat ≤ idx.getD r 0 ∧
                  idx.getD r 0 < (w.getD r (0, 0)).1.toNat + x.shape.getD r 0) then
              x.data ((List.range x.shape.length).map
                (fun r => idx.getD r 0 - (w.getD r (0, 0)).1.toNat))
            else value } := by
  unfold npPad
  rw [if_pos ⟨hw, hpos⟩]

lemma option_eq_some_getD {β : Type} (o : Option β) (d : β) (h : o.isSome) :
    o = some (o.getD d) := by
  cases o with
  | none => cases h
  | some y => rfl

/-- Workhorse: on a non-empty, rank-uniform collection with effective
fractions in `[0, 1]` and the default floor tie-break, `pad_max_shape`
succeeds; the target shape is a column-wise upper bound attained on every
axis, and each output entry is the `npPad` of the corresponding input. -/
lemma pad_max_shape_success {α : Type} (arrays : List (NDArray α))
    (before : Option (ℕ → ℕ → ℚ)) (after : ℕ → ℕ → ℚ) (value : α) (R : ℕ)
    (d : NDArray α)
    (hne : arrays ≠ [])
    (hrank : ∀ a ∈ arrays, a.shape.length = R)
    (hfrac : ∀ i r, 0 ≤ effectiveFrac before after i r ∧
      effectiveFrac before after i r ≤ 1) :
    ∃ ms out,
      colMaxShape (arrays.map NDArray.shape) = some ms ∧
      pad_max_shape arrays before after value Int.floor = some out ∧
      out.length = arrays.length ∧
      ms.length = R ∧
      (∀ r, r < R → ∀ a ∈ arrays, a.shape.getD r 0 ≤ ms.getD r 0) ∧
      (∀ r, r < R → ∃ a ∈ arrays, ms.getD r 0 = a.shape.getD r 0) ∧
      (∀ i, i < arrays.length → ∀ r, r < R →
        0 ≤ marginOf (arrays.map NDArray.shape) ms i r ∧
        0 ≤ padBefore Int.floor (marginOf (arrays.map NDArray.shape) ms i r)
            (effectiveFrac before after i r) ∧
        padBefore Int.floor (marginOf (arrays.map NDArray.shape) ms i r)
            (effectiveFrac before after i r) ≤
          marginOf (arrays.map NDArray.shape) ms i r) ∧
      (∀ i, i < arrays.length →
        npPad (arrays.getD i d)
          (padWidths Int.floor (effectiveFrac before after)
            (arrays.map NDArray.shape) ms R i) value = some (out.getD i d)) := by
  cases arrays with
  | nil => exact absurd rfl hne
  | cons x xs =>
    obtain ⟨ms, hcol⟩ : ∃ ms, colMaxShape ((x :: xs).map NDArray.shape) = some ms :=
      ⟨_, rfl⟩
    have hmsv : ms = (xs.map NDArray.shape).foldl
        (fun acc t => List.zipWith max acc t) x.shape := (Option.some.inj hcol).symm
    have hxR : x.shape.length = R := hrank x (by simp)
    have hlens : ∀ t ∈ xs.map NDArray.shape, t.length = x.shape.length := by
      intro t ht
      obtain ⟨a, ha, rfl⟩ := List.mem_map.mp ht
      rw [hrank a (by simp [ha]), hxR]
    have hmsR : ms.length = R := by
      rw [hmsv, foldl_zipWith_max_length _ _ hlens]
      exact hxR
    have hentry : ∀ r, r < R → ms.getD r 0 =
        ((xs.map NDArray.shape).map (fun t => t.getD r 0)).foldl
          (fun u v => max u v) (x.shape.getD r 0) := by
      intro r hr
      rw [hmsv, foldl_zipWith_max_getD _ _ r hlens (by omega)]
      simp only [List.foldl_map]
    have hub : ∀ r, r < R → ∀ a ∈ x :: xs, a.shape.getD r 0 ≤ ms.getD r 0 := by
      intro r hr a ha
      rw [hentry r hr]
      rcases List.mem_cons.mp ha with h1 | h1
      · rw [h1]
        exact le_foldl_max_init _ _
      · exact le_foldl_max_mem _ _ _
          (List.mem_map.mpr ⟨a.shape, List.mem_map.mpr ⟨a, h1, rfl⟩, rfl⟩)
    have hatt : ∀ r, r < R → ∃ a ∈ x :: xs, ms.getD r 0 = a.shape.getD r 0 := by
      intro r hr
      rw [hentry r hr]
      rcases foldl_max_choice ((xs.map NDArray.shape).map (fun t => t.getD r 0))
          (x.shape.getD r 0) with h1 | h1
      · exact ⟨x, by simp, h1⟩
      · obtain ⟨t, ht, hte⟩ := List.mem_map.mp h1
        obtain ⟨a, ha, rfl⟩ := List.mem_map.mp ht
        exact ⟨a, by simp [ha], hte.symm⟩
    have hmarg : ∀ i, i < (x :: xs).length → ∀ r, r < R →
        0 ≤ marginOf ((x :: xs).map NDArray.shape) ms i r := by
      intro i hi r hr
      unfold marginOf
      rw [getD_map_shape _ i d hi]
      have hle := hub r hr ((x :: xs).getD i d) (getD_mem _ i d hi)
      omega
    have hnp : ∀ i, i < (x :: xs).length →
        (npPad ((x :: xs).getD i d)
          (padWidths Int.floor (effectiveFrac before after)
            ((x :: xs).map NDArray.shape) ms R i) value).isSome := by
      intro i hi
      have hA : ((x :: xs).getD i d).shape.length = R := hrank _ (getD_mem _ i d hi)
      have hWlen : (padWidths Int.floor (effectiveFrac before after)
          ((x :: xs).map NDArray.shape) ms R i).length =
          ((x :: xs).getD i d).shape.length := by
        rw [padWidths_length, hA]
      have hWpos : ∀ p ∈ padWidths Int.floor (effectiveFrac before after)
          ((x :: xs).map NDArray.shape) ms R i, 0 ≤ p.1 ∧ 0 ≤ p.2 := by
        intro p hp
        obtain ⟨r, hr, rfl⟩ := mem_padWidths _ _ _ _ _ _ p hp
        refine ⟨padBefore_floor_nonneg _ _ (hmarg i hi r hr) (hfrac i r).1, ?_⟩
        have hble := padBefore_floor_le (marginOf ((x :: xs).map NDArray.shape) ms i r)
          (effectiveFrac before after i r) (hmarg i hi r hr) (hfrac i r).2
        unfold padAfter
        omega
      rw [npPad_eq_some _ _ _ hWlen hWpos]
      rfl
    have hg : ∀ ix ∈ (x :: xs).enum,
        npPad ix.2 (padWidths Int.floor (effectiveFrac before after)
          ((x :: xs).map NDArray.shape) ms R ix.1) value =
        some ((npPad ix.2 (padWidths Int.floor (effectiveFrac before after)
          ((x :: xs).map NDArray.shape) ms R ix.1) value).getD d) := by
      intro ix hix
      obtain ⟨k, hk, hke⟩ := List.mem_iff_getElem.mp hix
      have hk2 : k < (x :: xs).length := by simpa [List.enum_length] using hk
      have hixe : ix = (k, (x :: xs).getD k d) := by
        rw [← hke, List.getElem_enum, List.getD_eq_getElem _ _ hk2]
      rw [hixe]
      exact option_eq_some_getD _ d (hnp k hk2)
    have hmapM : (x :: xs).enum.mapM
        (fun ix => npPad ix.2 (padWidths Int.floor (effectiveFrac before after)
          ((x :: xs).map NDArray.shape) ms R ix.1) value) =
        some ((x :: xs).enum.map
          (fun ix => (npPad ix.2 (padWidths Int.floor (effectiveFrac before after)
            ((x :: xs).map NDArray.shape) ms R ix.1) value).getD d)) :=
      mapM_option_eq_map _ _ _ hg
    have hpad : pad_max_shape (x :: xs) before after value Int.floor =
        (x :: xs).enum.mapM
          (fun ix => npPad ix.2 (padWidths Int.floor (effectiveFrac before after)
            ((x :: xs).map NDArray.shape) ms ms.length ix.1) value) := by
      rw [hmsv]
      rfl
    refine ⟨ms, (x :: xs).enum.map
      (fun ix => (npPad ix.2 (padWidths Int.floor (effectiveFrac before after)
        ((x :: xs).map NDArray.shape) ms R ix.1) value).getD d),
      hcol, ?_, ?_, hmsR, hub, hatt,
      (fun i hi r hr => ⟨hmarg i hi r hr,
        padBefore_floor_nonneg _ _ (hmarg i hi r hr) (hfrac i r).1,
        padBefore_floor_le _ _ (hmarg i hi r hr) (hfrac i r).2⟩), ?_⟩
    · rw [hpad, hmsR, hmapM]
    · simp [List.enum_length]
    · intro i hi
      have hlen : i < ((x :: xs).enum.map
          (fun ix => (npPad ix.2 (padWidths Int.floor (effectiveFrac before after)
            ((x :: xs).map NDArray.shape) ms R ix.1) value).getD d)).length := by
        simpa [List.enum_length] using hi
      rw [List.getD_eq_getElem _ _ hlen, List.getElem_map, List.getElem_enum]
      have hixe : (x :: xs)[i] =
          (x :: xs).getD i d := (List.getD_eq_getElem _ _ hi).symm
      rw [hixe]
      exact option_eq_some_getD _ d (hnp i hi)

/-- Characterization of one padded output array: its shape reaches the
target sizes, the original data sits at the `before`-offsets, and every
other cell holds the fill value. -/
lemma npPad_padWidths_spec {α : Type} (x : NDArray α) (value : α) (tb : ℚ → ℤ)
    (f : ℕ → ℕ → ℚ) (shapes : List (List ℕ)) (ms : List ℕ) (R i : ℕ)
    (y : NDArray α)
    (hxR : x.shape.length = R)
    (hnp : npPad x (padWidths tb f shapes ms R i) value = some y)
    (hpb : ∀ r, r < R → 0 ≤ padBefore tb (marginOf shapes ms i r) (f i r) ∧
      padBefore tb (marginOf shapes ms i r) (f i r) ≤ marginOf shapes ms i r)
    (hmargin : ∀ r, r < R →
      marginOf shapes ms i r = (ms.getD r 0 : ℤ) - (x.shape.getD r 0 : ℤ)) :
    y.shape.length = R ∧
    (∀ r, r < R → y.shape.getD r 0 = ms.getD r 0) ∧
    (∀ idx, inBounds x.shape idx →
      y.data ((List.range R).map fun r =>
        idx.getD r 0 + (padBefore tb (marginOf shapes ms i r) (f i r)).toNat) =
        x.data idx) ∧
    (∀ idx, ¬ (∀ r, r < R →
        ((padBefore tb (marginOf shapes ms i r) (f i r)).toNat ≤ idx.getD r 0 ∧
          idx.getD r 0 <
            (padBefore tb (marginOf shapes ms i r) (f i r)).toNat +
              x.shape.getD r 0)) →
      y.data idx = value) := by
  have hwlen : (padWidths tb f shapes ms R i).length = x.shape.length := by
    rw [padWidths_length, hxR]
  have hwpos : ∀ p ∈ padWidths tb f shapes ms R i, 0 ≤ p.1 ∧ 0 ≤ p.2 := by
    intro p hp
    obtain ⟨r, hr, rfl⟩ := mem_padWidths _ _ _ _ _ _ p hp
    refine ⟨(hpb r hr).1, ?_⟩
    have h2 := (hpb r hr).2
    unfold padAfter
    omega
  rw [npPad_eq_some x _ value hwlen hwpos] at hnp
  have hy := Option.some.inj hnp
  subst hy
  refine ⟨?_, ?_, ?_, ?_⟩
  · simp [List.length_zipWith, padWidths_length, hxR]
  · intro r hr
    have hr2 : r < (List.zipWith (fun s p => s + p.1.toNat + p.2.toNat) x.shape
        (padWidths tb f shapes ms R i)).length := by
      simp [List.length_zipWith, padWidths_length, hxR]
      omega
    rw [List.getD_eq_getElem _ _ hr2, List.getElem_zipWith]
    have hrW : r < (padWidths tb f shapes ms R i).length := by
      simpa [padWidths_length] using hr
    have hrS : r < x.shape.length := by omega
    have hw : (padWidths tb f shapes ms R i)[r] =
        (padBefore tb (marginOf shapes ms i r) (f i r),
          padAfter tb (marginOf shapes ms i r) (f i r)) := by
      rw [← List.getD_eq_getElem _ (0, 0) hrW]
      exact padWidths_getD tb f shapes ms R i r hr
    rw [hw]
    have hsh : x.shape[r] = x.shape.getD r 0 :=
      (List.getD_eq_getElem _ _ hrS).symm
    rw [hsh]
    have h1 := hpb r hr
    have h2 := hmargin r hr
    unfold padAfter
    omega
  · intro idx hidx
    obtain ⟨hlen, hbd⟩ := hidx
    show (if _ then _ else _) = _
    rw [if_pos ?_]
    · apply congrArg
      rw [List.map_congr_left (g := fun r => idx.getD r 0) ?_]
      · rw [← hlen]
        exact map_range_getD idx
      · intro r hrm
        have hr : r < R := by
          have := List.mem_range.mp hrm
          omega
        have hmr : ((List.range R).map fun r =>
            idx.getD r 0 + (padBefore tb (marginOf shapes ms i r) (f i r)).toNat).getD r 0 =
            idx.getD r 0 + (padBefore tb (marginOf shapes ms i r) (f i r)).toNat :=
          getD_map_range _ R r 0 hr
        rw [hmr, padWidths_getD tb f shapes ms R i r hr]
        show idx.getD r 0 + (padBefore tb (marginOf shapes ms i r) (f i r)).toNat -
            (padBefore tb (marginOf shapes ms i r) (f i r)).toNat = idx.getD r 0
        omega
    · intro r hr
      have hrR : r < R := by omega
      have hmr : ((List.range R).map fun r =>
          idx.getD r 0 + (padBefore tb (marginOf shapes ms i r) (f i r)).toNat).getD r 0 =
          idx.getD r 0 + (padBefore tb (marginOf shapes ms i r) (f i r)).toNat :=
        getD_map_range _ R r 0 hrR
      rw [padWidths_getD tb f shapes ms R i r hrR, hmr]
      have := hbd r hr
      omega
  · intro idx hout
    show (if _ then _ else _) = _
    rw [if_neg ?_]
    intro hcond
    apply hout
    intro r hr
    have hr2 : r < x.shape.length := by omega
    have h3 := hcond r hr2
    rw [padWidths_getD tb f shapes ms R i r hr] at h3
    simpa using h3

/-! ## Concrete arrays used by the concrete claims -/

/-- `np.arange(3)` as a 1-D array. -/
def arange3 : NDArray ℤ := ⟨[3], fun idx => (idx.getD 0 0 : ℤ)⟩

/-- `np.arange(8)` as a 1-D array. -/
def arange8 : NDArray ℤ := ⟨[8], fun idx => (idx.getD 0 0 : ℤ)⟩

/-- The margin of array `i` on axis `r` expressed through the array itself. -/
lemma marginOf_map_shape {α : Type} (arrays : List (NDArray α)) (ms : List ℕ)
    (i : ℕ) (d : NDArray α) (hi : i < arrays.length) (r : ℕ) :
    marginOf (arrays.map NDArray.shape) ms i r =
      (ms.getD r 0 : ℤ) - ((arrays.getD i d).shape.getD r 0 : ℤ) := by
  unfold marginOf
  rw [getD_map_shape _ i d hi]

/-- `pad_max_shape` depends on `before`/`after` only through the effective
fraction matrix. -/
lemma pad_max_shape_frac_congr {α : Type} (arrays : List (NDArray α))
    (b1 b2 : Option (ℕ → ℕ → ℚ)) (a1 a2 : ℕ → ℕ → ℚ) (value : α) (tb : ℚ → ℤ)
    (h : effectiveFrac b1 a1 = effectiveFrac b2 a2) :
    pad_max_shape arrays b1 a1 value tb = pad_max_shape arrays b2 a2 value tb := by
  unfold pad_max_shape
  rw [h]

/-- C3: for every input collection, fraction specification and tie-break
function, and every array `i` and axis `r`, the computed before count plus
the computed after count equals the margin
`target_size[r] - original_size[i,r]`. -/
theorem pad_max_shape_margin_conservation {α : Type} (arrays : List (NDArray α))
    (before : Option (ℕ → ℕ → ℚ)) (after : ℕ → ℕ → ℚ) (tie_break : ℚ → ℤ)
    (ms : List ℕ)
    (_hms : colMaxShape (arrays.map NDArray.shape) = some ms) :
    ∀ i r,
      padBefore tie_break (marginOf (arrays.map NDArray.shape) ms i r)
          (effectiveFrac before after i r) +
        padAfter tie_break (marginOf (arrays.map NDArray.shape) ms i r)
          (effectiveFrac before after i r) =
      (ms.getD r 0 : ℤ) - (((arrays.map NDArray.shape).getD i []).getD r 0 : ℤ) := by
  intro i r
  unfold padAfter marginOf
  ring

theorem pad_max_shape_margin_conservation_witness :
    padBefore Int.floor (marginOf [[2]] [2] 0 0)
        (effectiveFrac none (fun _ _ => 1) 0 0) +
      padAfter Int.floor (marginOf [[2]] [2] 0 0)
        (effectiveFrac none (fun _ _ => 1) 0 0) =
      (([2] : List ℕ).getD 0 0 : ℤ) -
        ((([[2]] : List (List ℕ)).getD 0 []).getD 0 0 : ℤ) :=
  pad_max_shape_margin_conservation [NDArray.mk [2] (fun _ => (0 : ℤ))] none
    (fun _ _ => 1) Int.floor [2] rfl 0 0

/-- C6: for margin 5 and fraction 1/2, the floor tie-break yields
before = 2 and after = 3, while the ceil tie-break yields before = 3 and
after = 2. -/
theorem tie_break_directionality :
    padBefore Int.floor 5 (1/2) = 2 ∧ padAfter Int.floor 5 (1/2) = 3 ∧
    padBefore Int.ceil 5 (1/2) = 3 ∧ padAfter Int.ceil 5 (1/2) = 2 := by
  have hf : padBefore Int.floor 5 (1/2) = 2 := by norm_num [padBefore]
  have hc : padBefore Int.ceil 5 (1/2) = 3 := by
    norm_num [padBefore, Int.ceil_eq_iff]
  refine ⟨hf, ?_, hc, ?_⟩
  · unfold padAfter
    rw [hf]
    norm_num
  · unfold padAfter
    rw [hc]
    norm_num

/-- C7: when a `before` specification is supplied, the `after` argument has
no influence on the result. -/
theorem pad_max_shape_after_ignored {α : Type} (arrays : List (NDArray α))
    (b : ℕ → ℕ → ℚ) (a1 a2 : ℕ → ℕ → ℚ) (value : α) (tie_break : ℚ → ℤ) :
    pad_max_shape arrays (some b) a1 value tie_break =
      pad_max_shape arrays (some b) a2 value tie_break := rfl

/-- C8: omitting `before` is the same as supplying `before = 1 - after`; in
particular the default `after = 1` equals `before = 0`, and with the default
floor tie-break a zero fraction puts zero padding before the data. -/
theorem pad_max_shape_default_before {α : Type} (arrays : List (NDArray α))
    (after : ℕ → ℕ → ℚ) (value : α) (tie_break : ℚ → ℤ) :
    pad_max_shape arrays none after value tie_break =
      pad_max_shape arrays (some fun i r => 1 - after i r) after value tie_break ∧
    pad_max_shape arrays none (fun _ _ => 1) value tie_break =
      pad_max_shape arrays (some fun _ _ => 0) (fun _ _ => 1) value tie_break ∧
    ∀ m : ℤ, padBefore Int.floor m 0 = 0 := by
  refine ⟨rfl, ?_, ?_⟩
  · apply pad_max_shape_frac_congr
    funext i r
    simp [effectiveFrac]
  · intro m
    simp [padBefore]

/-- C10: on the empty collection the call fails (the column-wise maximum
over zero shape rows has no identity) instead of returning an empty list. -/
theorem pad_max_shape_empty_fails {α : Type} (before : Option (ℕ → ℕ → ℚ))
    (after : ℕ → ℕ → ℚ) (value : α) (tie_break : ℚ → ℤ) :
    pad_max_shape ([] : List (NDArray α)) before after value tie_break = none :=
  rfl

/-- C5: before = tie_break(margin * frac) cast to integer, after = margin −
before; with the floor tie-break and fractions in [0, 1] the before count
stays within [0, margin], both widths are non-negative, and the padding
primitive accepts them (its invalid-width failure is unreachable). -/
theorem pad_counts_well_formed {α : Type} (x : NDArray α) (value : α)
    (m : ℕ → ℤ) (f : ℕ → ℚ)
    (hm : ∀ r, 0 ≤ m r) (hf : ∀ r, 0 ≤ f r ∧ f r ≤ 1) :
    (∀ (tb : ℚ → ℤ) (mm : ℤ) (ff : ℚ),
      padBefore tb mm ff = tb ((mm : ℚ) * ff) ∧
      padAfter tb mm ff = mm - padBefore tb mm ff) ∧
    (∀ r, 0 ≤ padBefore Int.floor (m r) (f r) ∧
      padBefore Int.floor (m r) (f r) ≤ m r ∧
      0 ≤ padAfter Int.floor (m r) (f r)) ∧
    (npPad x ((List.range x.shape.length).map fun r =>
      (padBefore Int.floor (m r) (f r), padAfter Int.floor (m r) (f r)))
      value).isSome := by
  have hbd : ∀ r, 0 ≤ padBefore Int.floor (m r) (f r) ∧
      padBefore Int.floor (m r) (f r) ≤ m r ∧
      0 ≤ padAfter Int.floor (m r) (f r) := by
    intro r
    have h1 := padBefore_floor_nonneg (m r) (f r) (hm r) (hf r).1
    have h2 := padBefore_floor_le (m r) (f r) (hm r) (hf r).2
    refine ⟨h1, h2, ?_⟩
    unfold padAfter
    omega
  refine ⟨fun tb mm ff => ⟨rfl, rfl⟩, hbd, ?_⟩
  have hpos : ∀ p ∈ (List.range x.shape.length).map fun r =>
      (padBefore Int.floor (m r) (f r), padAfter Int.floor (m r) (f r)),
      0 ≤ p.1 ∧ 0 ≤ p.2 := by
    intro p hp
    obtain ⟨r, _, rfl⟩ := List.mem_map.mp hp
    exact ⟨(hbd r).1, (hbd r).2.2⟩
  rw [npPad_eq_some x _ value (by simp) hpos]
  rfl

theorem pad_counts_well_formed_witness :
    (∀ (tb : ℚ → ℤ) (mm : ℤ) (ff : ℚ),
      padBefore tb mm ff = tb ((mm : ℚ) * ff) ∧
      padAfter tb mm ff = mm - padBefore tb mm ff) ∧
    (∀ _r : ℕ, 0 ≤ padBefore Int.floor 5 (1/2) ∧
      padBefore Int.floor 5 (1/2) ≤ 5 ∧
      0 ≤ padAfter Int.floor 5 (1/2)) ∧
    (npPad (NDArray.mk [1] fun _ => (0 : ℤ))
      ((List.range (NDArray.mk ([1] : List ℕ) fun _ => (0 : ℤ)).shape.length).map
        fun _ => (padBefore Int.floor 5 (1/2), padAfter Int.floor 5 (1/2)))
      0).isSome :=
  pad_counts_well_formed (NDArray.mk [1] fun _ => (0 : ℤ)) 0
    (fun _ => 5) (fun _ => 1/2)
    (fun _ => by norm_num) (fun _ => by constructor <;> norm_num)

/-- C9: the core performs no fraction validation: with `before = 2` and a
margin of 5, the before count is 10 (exceeding the margin) and the after
count is −5 (negative); these counts reach the padding primitive unchecked,
and its invalid-pad-width rejection is what makes the call fail. -/
theorem fraction_out_of_range_unvalidated :
    marginOf [[3], [8]] [8] 0 0 = 5 ∧
    padBefore Int.floor (marginOf [[3], [8]] [8] 0 0) 2 = 10 ∧
    padAfter Int.floor (marginOf [[3], [8]] [8] 0 0) 2 = -5 ∧
    npPad arange3 (padWidths Int.floor
      (effectiveFrac (some fun _ _ => 2) (fun _ _ => 1)) [[3], [8]] [8] 1 0)
      0 = none ∧
    pad_max_shape [arange3, arange8] (some fun _ _ => 2) (fun _ _ => 1) 0
      Int.floor = none := by
  have hm : marginOf [[3], [8]] [8] 0 0 = 5 := by decide
  have hb : padBefore Int.floor (marginOf [[3], [8]] [8] 0 0) 2 = 10 := by
    rw [hm]
    norm_num [padBefore]
  have ha : padAfter Int.floor (marginOf [[3], [8]] [8] 0 0) 2 = -5 := by
    unfold padAfter
    rw [hm]
    norm_num [padBefore]
  have hpw : padWidths Int.floor
      (effectiveFrac (some fun _ _ => 2) (fun _ _ => 1)) [[3], [8]] [8] 1 0 =
      [(10, -5)] := by
    unfold padWidths effectiveFrac
    simp only [List.range_succ, List.range_zero, List.map_cons, List.map_nil,
      List.nil_append]
    rw [hb, ha]
  have hnp : npPad arange3 (padWidths Int.floor
      (effectiveFrac (some fun _ _ => 2) (fun _ _ => 1)) [[3], [8]] [8] 1 0)
      0 = none := by
    rw [hpw]
    unfold npPad
    rw [if_neg]
    intro hcontra
    have h5 := (hcontra.2 (10, -5) (by simp)).2
    norm_num at h5
  refine ⟨hm, hb, ha, hnp, ?_⟩
  have hstep : pad_max_shape [arange3, arange8] (some fun _ _ => 2)
      (fun _ _ => 1) 0 Int.floor =
      [arange3, arange8].enum.mapM fun ix =>
        npPad ix.2 (padWidths Int.floor
          (effectiveFrac (some fun _ _ => 2) (fun _ _ => 1)) [[3], [8]] [8] 1
          ix.1) 0 := rfl
  rw [hstep]
  rw [show ([arange3, arange8].enum) = [(0, arange3), (1, arange8)] from rfl]
  rw [List.mapM_cons]
  simp only []
  rw [hnp]
  rfl

/-- C1: for a non-empty rank-uniform collection, fractions in [0, 1] and the
default floor tie-break, the call succeeds with one output per input, and
the shape of every output array is, on every axis, an upper bound of all input
sizes that is attained by some input (i.e. the per-axis maximum). -/
theorem pad_max_shape_shape_invariant {α : Type} (arrays : List (NDArray α))
    (before : Option (ℕ → ℕ → ℚ)) (after : ℕ → ℕ → ℚ) (value : α) (R : ℕ)
    (d : NDArray α)
    (hne : arrays ≠ [])
    (hrank : ∀ a ∈ arrays, a.shape.length = R)
    (hfrac : ∀ i r, 0 ≤ effectiveFrac before after i r ∧
      effectiveFrac before after i r ≤ 1) :
    ∃ out, pad_max_shape arrays before after value Int.floor = some out ∧
      out.length = arrays.length ∧
      ∀ i, i < arrays.length →
        (out.getD i d).shape.length = R ∧
        ∀ r, r < R →
          (∀ a ∈ arrays, a.shape.getD r 0 ≤ (out.getD i d).shape.getD r 0) ∧
          (∃ a ∈ arrays, (out.getD i d).shape.getD r 0 = a.shape.getD r 0) := by
  obtain ⟨ms, out, _hcol, hpad, hlen, _hmsR, hub, hatt, hpb, hnp⟩ :=
    pad_max_shape_success arrays before after value R d hne hrank hfrac
  refine ⟨out, hpad, hlen, ?_⟩
  intro i hi
  have hxR : (arrays.getD i d).shape.length = R := hrank _ (getD_mem _ i d hi)
  obtain ⟨hshlen, hshentry, _, _⟩ :=
    npPad_padWidths_spec (arrays.getD i d) value Int.floor
      (effectiveFrac before after) (arrays.map NDArray.shape) ms R i
      (out.getD i d) hxR (hnp i hi)
      (fun r hr => ⟨(hpb i hi r hr).2.1, (hpb i hi r hr).2.2⟩)
      (fun r _hr => marginOf_map_shape arrays ms i d hi r)
  refine ⟨hshlen, fun r hr => ?_⟩
  rw [hshentry r hr]
  exact ⟨hub r hr, hatt r hr⟩

theorem pad_max_shape_shape_invariant_witness :
    ([arange3, arange8] : List (NDArray ℤ)) ≠ [] ∧
    (∀ a ∈ ([arange3, arange8] : List (NDArray ℤ)), a.shape.length = 1) ∧
    (∀ i r, 0 ≤ effectiveFrac none (fun _ _ => 1) i r ∧
      effectiveFrac none (fun _ _ => 1) i r ≤ 1) ∧
    ∃ out, pad_max_shape [arange3, arange8] none (fun _ _ => 1) (0 : ℤ)
        Int.floor = some out ∧
      out.length = ([arange3, arange8] : List (NDArray ℤ)).length ∧
      ∀ i, i < ([arange3, arange8] : List (NDArray ℤ)).length →
        (out.getD i arange3).shape.length = 1 ∧
        ∀ r, r < 1 →
          (∀ a ∈ ([arange3, arange8] : List (NDArray ℤ)),
            a.shape.getD r 0 ≤ (out.getD i arange3).shape.getD r 0) ∧
          (∃ a ∈ ([arange3, arange8] : List (NDArray ℤ)),
            (out.getD i arange3).shape.getD r 0 = a.shape.getD r 0) := by
  have h1 : ([arange3, arange8] : List (NDArray ℤ)) ≠ [] := by simp
  have h2 : ∀ a ∈ ([arange3, arange8] : List (NDArray ℤ)),
      a.shape.length = 1 := by
    intro a ha
    rcases List.mem_cons.mp ha with h | h
    · rw [h]; rfl
    · rcases List.mem_cons.mp h with h3 | h3
      · rw [h3]; rfl
      · cases h3
  have h3 : ∀ i r, 0 ≤ effectiveFrac none (fun _ _ => (1:ℚ)) i r ∧
      effectiveFrac none (fun _ _ => 1) i r ≤ 1 := by
    intro i r
    constructor <;> norm_num [effectiveFrac]
  exact ⟨h1, h2, h3,
    pad_max_shape_shape_invariant [arange3, arange8] none (fun _ _ => 1) 0 1
      arange3 h1 h2 h3⟩

/-- C2: for valid inputs (non-empty, rank-uniform, fractions in [0, 1],
floor tie-break), every input array reappears unchanged inside its output at
the before-count offsets, and every cell outside that block is the fill
value. -/
theorem pad_max_shape_data_preservation {α : Type} (arrays : List (NDArray α))
    (before : Option (ℕ → ℕ → ℚ)) (after : ℕ → ℕ → ℚ) (value : α) (R : ℕ)
    (d : NDArray α)
    (hne : arrays ≠ [])
    (hrank : ∀ a ∈ arrays, a.shape.length = R)
    (hfrac : ∀ i r, 0 ≤ effectiveFrac before after i r ∧
      effectiveFrac before after i r ≤ 1) :
    ∃ ms out,
      colMaxShape (arrays.map NDArray.shape) = some ms ∧
      pad_max_shape arrays before after value Int.floor = some out ∧
      ∀ i, i < arrays.length →
        (∀ idx, inBounds (arrays.getD i d).shape idx →
          (out.getD i d).data ((List.range R).map fun r =>
            idx.getD r 0 + (padBefore Int.floor
              (marginOf (arrays.map NDArray.shape) ms i r)
              (effectiveFrac before after i r)).toNat) =
            (arrays.getD i d).data idx) ∧
        (∀ idx, ¬ (∀ r, r < R →
            ((padBefore Int.floor (marginOf (arrays.map NDArray.shape) ms i r)
                (effectiveFrac before after i r)).toNat ≤ idx.getD r 0 ∧
              idx.getD r 0 < (padBefore Int.floor
                (marginOf (arrays.map NDArray.shape) ms i r)
                (effectiveFrac before after i r)).toNat +
                (arrays.getD i d).shape.getD r 0)) →
          (out.getD i d).data idx = value) := by
  obtain ⟨ms, out, hcol, hpad, _hlen, _hmsR, _hub, _hatt, hpb, hnp⟩ :=
    pad_max_shape_success arrays before after value R d hne hrank hfrac
  refine ⟨ms, out, hcol, hpad, ?_⟩
  intro i hi
  have hxR : (arrays.getD i d).shape.length = R := hrank _ (getD_mem _ i d hi)
  obtain ⟨_, _, hin, hout⟩ :=
    npPad_padWidths_spec (arrays.getD i d) value Int.floor
      (effectiveFrac before after) (arrays.map NDArray.shape) ms R i
      (out.getD i d) hxR (hnp i hi)
      (fun r hr => ⟨(hpb i hi r hr).2.1, (hpb i hi r hr).2.2⟩)
      (fun r _hr => marginOf_map_shape arrays ms i d hi r)
  exact ⟨hin, hout⟩

theorem pad_max_shape_data_preservation_witness :
    ∃ ms out,
      colMaxShape (([arange3, arange8] : List (NDArray ℤ)).map NDArray.shape) =
        some ms ∧
      pad_max_shape [arange3, arange8] none (fun _ _ => 1) (0 : ℤ) Int.floor =
        some out ∧
      ∀ i, i < ([arange3, arange8] : List (NDArray ℤ)).length →
        (∀ idx, inBounds (([arange3, arange8] : List (NDArray ℤ)).getD i
            arange3).shape idx →
          (out.getD i arange3).data ((List.range 1).map fun r =>
            idx.getD r 0 + (padBefore Int.floor
              (marginOf (([arange3, arange8] : List (NDArray ℤ)).map
                NDArray.shape) ms i r)
              (effectiveFrac none (fun _ _ => 1) i r)).toNat) =
            (([arange3, arange8] : List (NDArray ℤ)).getD i arange3).data idx) ∧
        (∀ idx, ¬ (∀ r, r < 1 →
            ((padBefore Int.floor
                (marginOf (([arange3, arange8] : List (NDArray ℤ)).map
                  NDArray.shape) ms i r)
                (effectiveFrac none (fun _ _ => 1) i r)).toNat ≤ idx.getD r 0 ∧
              idx.getD r 0 < (padBefore Int.floor
                (marginOf (([arange3, arange8] : List (NDArray ℤ)).map
                  NDArray.shape) ms i r)
                (effectiveFrac none (fun _ _ => 1) i r)).toNat +
                (([arange3, arange8] : List (NDArray ℤ)).getD i
                  arange3).shape.getD r 0)) →
          (out.getD i arange3).data idx = 0) :=
  pad_max_shape_data_preservation [arange3, arange8] none (fun _ _ => 1) 0 1
    arange3 (by simp)
    (by
      intro a ha
      rcases List.mem_cons.mp ha with h | h
      · rw [h]; rfl
      · rcases List.mem_cons.mp h with h3 | h3
        · rw [h3]; rfl
        · cases h3)
    (by
      intro i r
      constructor <;> norm_num [effectiveFrac])

/-- Unfolding of `pad_max_shape` once the column-wise maximum is known. -/
lemma pad_max_shape_eq_mapM {α : Type} (arrays : List (NDArray α))
    (before : Option (ℕ → ℕ → ℚ)) (after : ℕ → ℕ → ℚ) (value : α)
    (tb : ℚ → ℤ) (ms : List ℕ)
    (hms : colMaxShape (arrays.map NDArray.shape) = some ms) :
    pad_max_shape arrays before after value tb =
      arrays.enum.mapM fun ix =>
        npPad ix.2 (padWidths tb (effectiveFrac before after)
          (arrays.map NDArray.shape) ms ms.length ix.1) value := by
  simp only [pad_max_shape]
  rw [hms]

/-- `np.pad` with all-zero widths neither changes the shape nor the data. -/
lemma npPad_zero_widths_eq {α : Type} (x : NDArray α) (value : α) (R : ℕ)
    (y : NDArray α) (hxR : x.shape.length = R)
    (h : npPad x ((List.range R).map fun _ => ((0 : ℤ), (0 : ℤ))) value =
      some y) :
    y.shape = x.shape ∧
    ∀ idx, inBounds x.shape idx → y.data idx = x.data idx := by
  rw [npPad_eq_some x _ value (by simp [hxR]) (by
    intro p hp
    obtain ⟨r, _, rfl⟩ := List.mem_map.mp hp
    exact ⟨le_refl 0, le_refl 0⟩)] at h
  have hy := Option.some.inj h
  subst hy
  constructor
  · apply List.ext_getElem
    · simp [List.length_zipWith, hxR]
    · intro j h1 h2
      rw [List.getElem_zipWith]
      simp
  · intro idx hbnd
    obtain ⟨hlen, hbd⟩ := hbnd
    show (if _ then _ else _) = _
    rw [if_pos ?_]
    · apply congrArg
      rw [List.map_congr_left (g := fun r => idx.getD r 0) ?_]
      · rw [← hlen]
        exact map_range_getD idx
      · intro r hrm
        have hr : r < R := by
          have := List.mem_range.mp hrm
          omega
        have hmr : (((List.range R).map fun _ =>
            ((0 : ℤ), (0 : ℤ))).getD r (0, 0)) = ((0 : ℤ), (0 : ℤ)) :=
          getD_map_range _ R r (0, 0) hr
        rw [hmr]
        show idx.getD r 0 - (0 : ℤ).toNat = idx.getD r 0
        omega
    · intro r hr
      have hrR : r < R := by omega
      have hmr : (((List.range R).map fun _ =>
          ((0 : ℤ), (0 : ℤ))).getD r (0, 0)) = ((0 : ℤ), (0 : ℤ)) :=
        getD_map_range _ R r (0, 0) hrR
      rw [hmr]
      have := hbd r hr
      show (0 : ℤ).toNat ≤ idx.getD r 0 ∧
        idx.getD r 0 < (0 : ℤ).toNat + x.shape.getD r 0
      omega

/-- C4: an array whose shape already equals the target shape on every axis
gets zero before and after pad widths for every fraction specification and
every tie-break that is the identity on integers, and the corresponding
output array (when the call succeeds) equals the input array in shape and
contents. -/
theorem pad_max_shape_zero_margin_identity {α : Type} (arrays : List (NDArray α))
    (before : Option (ℕ → ℕ → ℚ)) (after : ℕ → ℕ → ℚ) (value : α)
    (tie_break : ℚ → ℤ) (R i : ℕ) (d : NDArray α) (ms : List ℕ)
    (hms : colMaxShape (arrays.map NDArray.shape) = some ms)
    (hi : i < arrays.length)
    (hrank : ∀ a ∈ arrays, a.shape.length = R)
    (htarget : ∀ r, r < R → (arrays.getD i d).shape.getD r 0 = ms.getD r 0)
    (htb : ∀ k : ℤ, tie_break (k : ℚ) = k) :
    (∀ r, r < R →
      padBefore tie_break (marginOf (arrays.map NDArray.shape) ms i r)
          (effectiveFrac before after i r) = 0 ∧
      padAfter tie_break (marginOf (arrays.map NDArray.shape) ms i r)
          (effectiveFrac before after i r) = 0) ∧
    ∀ out, pad_max_shape arrays before after value tie_break = some out →
      (out.getD i d).shape = (arrays.getD i d).shape ∧
      ∀ idx, inBounds (arrays.getD i d).shape idx →
        (out.getD i d).data idx = (arrays.getD i d).data idx := by
  have hmarg0 : ∀ r, r < R →
      marginOf (arrays.map NDArray.shape) ms i r = 0 := by
    intro r hr
    rw [marginOf_map_shape arrays ms i d hi r, htarget r hr]
    exact sub_self _
  have hzero : ∀ r, r < R →
      padBefore tie_break (marginOf (arrays.map NDArray.shape) ms i r)
        (effectiveFrac before after i r) = 0 := by
    intro r hr
    unfold padBefore
    rw [hmarg0 r hr]
    rw [show (((0 : ℤ) : ℚ) * effectiveFrac before after i r) = ((0 : ℤ) : ℚ)
      by push_cast; ring]
    exact htb 0
  have hzeroA : ∀ r, r < R →
      padAfter tie_break (marginOf (arrays.map NDArray.shape) ms i r)
        (effectiveFrac before after i r) = 0 := by
    intro r hr
    unfold padAfter
    rw [hzero r hr, hmarg0 r hr]
    norm_num
  refine ⟨fun r hr => ⟨hzero r hr, hzeroA r hr⟩, ?_⟩
  intro out hout
  have hmsR : ms.length = R := by
    refine colMaxShape_length _ _ R hms ?_
    intro t ht
    obtain ⟨a, ha, rfl⟩ := List.mem_map.mp ht
    exact hrank a ha
  rw [pad_max_shape_eq_mapM arrays before after value tie_break ms hms, hmsR]
    at hout
  obtain ⟨_, hk⟩ := mapM_option_some_getD arrays.enum _ out (0, d) d hout
  have hnpi := hk i (by simpa [List.enum_length] using hi)
  rw [enum_getD arrays i d hi] at hnpi
  simp only [] at hnpi
  have hW : padWidths tie_break (effectiveFrac before after)
      (arrays.map NDArray.shape) ms R i =
      (List.range R).map fun _ => ((0 : ℤ), (0 : ℤ)) := by
    unfold padWidths
    apply List.map_congr_left
    intro r hrm
    have hr := List.mem_range.mp hrm
    rw [hzero r hr, hzeroA r hr]
  rw [hW] at hnpi
  exact npPad_zero_widths_eq (arrays.getD i d) value R (out.getD i d)
    (hrank _ (getD_mem _ i d hi)) hnpi

theorem pad_max_shape_zero_margin_identity_witness :
    (∀ r, r < 1 →
      padBefore Int.floor (marginOf [[3]] [3] 0 r)
          (effectiveFrac none (fun _ _ => 1) 0 r) = 0 ∧
      padAfter Int.floor (marginOf [[3]] [3] 0 r)
          (effectiveFrac none (fun _ _ => 1) 0 r) = 0) ∧
    ∀ out, pad_max_shape [arange3] none (fun _ _ => 1) (0 : ℤ) Int.floor =
        some out →
      (out.getD 0 arange3).shape =
        (([arange3] : List (NDArray ℤ)).getD 0 arange3).shape ∧
      ∀ idx, inBounds (([arange3] : List (NDArray ℤ)).getD 0
          arange3).shape idx →
        (out.getD 0 arange3).data idx =
          (([arange3] : List (NDArray ℤ)).getD 0 arange3).data idx :=
  pad_max_shape_zero_margin_identity [arange3] none (fun _ _ => 1) 0 Int.floor
    1 0 arange3 [3] rfl (by norm_num)
    (by
      intro a ha
      rw [List.mem_singleton.mp ha]
      rfl)
    (fun r _hr => rfl)
    (fun k => Int.floor_intCast k)
